import Mathlib

/-!
Verification of the worker-pool orchestration layer of this repository:
`mlagents/envs/subprocess_env_manager.py` (SubprocessEnvManager, UnityEnvWorker,
the worker loop) and `mlagents/trainers/trainer_controller.py` (TrainerController).

The Python code is shallowly embedded: Python dicts become insertion-ordered
association lists, the multiprocessing step queue becomes an explicit list of
responses that are available to the coordinator when its poll loop runs, and
operations that can raise (unguarded dict/list indexing) or block forever
(the non-blocking poll retry loop with nothing queued) return explicit
outcome values.  Timing-tree bookkeeping (TimerNode payloads and their merge)
is orthogonal to every property below and is omitted from the embedding.
-/

namespace MLAgents

/-- A Python `dict` with `String` keys: an insertion-ordered association list.
`dictInsert` replaces in place when the key exists (Python assignment
semantics), otherwise appends. -/
abbrev Dict (α : Type) : Type := List (String × α)

/-- `d.get(k)` / `d[k]` lookup: first binding for the key, if any. -/
def dictGet {α : Type} (d : Dict α) (k : String) : Option α :=
  match d with
  | [] => none
  | (k', v) :: rest => if k' = k then some v else dictGet rest k

/-- `d[k] = v`: replace the binding in place if present, else append. -/
def dictInsert {α : Type} (d : Dict α) (k : String) (v : α) : Dict α :=
  match d with
  | [] => [(k, v)]
  | (k', v') :: rest =>
      if k' = k then (k, v) :: rest else (k', v') :: dictInsert rest k v

/-- The keys of a dict, in iteration order. -/
def dictKeys {α : Type} (d : Dict α) : List String := d.map Prod.fst

/-- One agent's observation snapshot (`AgentInfo`); the observation payload
itself is opaque to the orchestration layer and is abstracted to a `Nat`. -/
structure AgentInfo where
  id : String
  brain_name : String
  obs : Nat
deriving DecidableEq

/-- `ActionInfo` as returned by `policy.get_action` for one brain: a per-brain
batch, indexed per agent.  `text` is never indexed per agent by the code and
stays opaque. -/
structure ActionInfo where
  action : List Nat
  memory : Option (List Nat)
  text : Option Nat
  value : Option (List Nat)
deriving DecidableEq

/-- The per-agent slice of an `ActionInfo` batch that `_take_step` stores in
`previous_agent_action_infos`.  A `none` inside `action` models the
out-of-range index that would raise in Python. -/
structure AgentActionInfo where
  action : Option Nat
  memory : Option Nat
  text : Option Nat
  value : Option Nat
deriving DecidableEq

/-- `AgentStep(previous_agent_info, current_agent_info, previous_action)`. -/
structure AgentStep where
  previous_agent_info : Option AgentInfo
  current_agent_info : AgentInfo
  previous_action : Option AgentActionInfo
deriving DecidableEq

/-- The payload a worker pushes on the shared step queue
(`StepResponse.all_agent_info`; the timer snapshot is omitted). -/
structure StepResponse where
  all_agent_info : List AgentInfo
deriving DecidableEq

/-- `EnvironmentResponse` as it appears on the shared step queue: the `name`
field is always `"step"` there and is omitted. -/
structure EnvironmentResponse where
  worker_id : Nat
  payload : StepResponse
deriving DecidableEq

/-- Coordinator-side state of one worker (`UnityEnvWorker`): the process and
connection handles live outside the embedding. -/
structure UnityEnvWorker where
  worker_id : Nat
  previous_agent_steps : Dict AgentStep
  waiting : Bool
deriving DecidableEq

/-- `SubprocessEnvManager` state.  `step_queue` holds the step responses that
workers have made available to the coordinator by the time its poll loop
drains the shared queue. -/
structure SubprocessEnvManager where
  env_workers : List UnityEnvWorker
  step_queue : List EnvironmentResponse
  previous_agent_action_infos : Dict AgentActionInfo
deriving DecidableEq

/-- The external policy capability: `self.policies[brain_name].get_action`. -/
abbrev Policies : Type := String → List AgentInfo → ActionInfo

/-! ## `_take_step`: per-brain action batches and per-agent recorded slices -/

/-- The per-agent slice of a batch at index `i`:
`ActionInfo(action[i], memory[i] if memory is not None else None, None,
value[i] if value is not None else None, ...)`. -/
def sliceAt (b : ActionInfo) (i : Nat) : AgentActionInfo :=
  { action := b.action[i]?
    memory := b.memory.bind fun m => m[i]?
    text := none
    value := b.value.bind fun v => v[i]? }

/-- One iteration of the grouping loop in `_take_step`: append this step to
its brain's bucket (creating the bucket on first sight of the brain). -/
def groupStep (d : Dict (List AgentStep)) (p : String × AgentStep) :
    Dict (List AgentStep) :=
  let bn := p.2.current_agent_info.brain_name
  match dictGet d bn with
  | some ss => dictInsert d bn (ss ++ [p.2])
  | none => dictInsert d bn [p.2]

/-- `previous_steps_by_brain`: group the worker's stored steps by the brain
name of their current observation, preserving iteration order. -/
def groupByBrain (l : Dict AgentStep) : Dict (List AgentStep) :=
  l.foldl groupStep []

/-- The inner `enumerate(agent_infos)` loop of `_take_step`: record the exact
per-agent slice of the batch, keyed by agent id, into the shared
`previous_agent_action_infos` map. -/
def writeSlices (batch : ActionInfo) :
    List AgentInfo → Nat → Dict AgentActionInfo → Dict AgentActionInfo
  | [], _, infos => infos
  | info :: rest, idx, infos =>
      writeSlices batch rest (idx + 1)
        (dictInsert infos info.id (sliceAt batch idx))

/-- Processing of one brain group in `_take_step`: query the policy once for
the brain, store the batch in `all_action_info`, and record every agent's
slice. -/
def takeStepBrain (policies : Policies)
    (acc : Dict ActionInfo × Dict AgentActionInfo)
    (p : String × List AgentStep) : Dict ActionInfo × Dict AgentActionInfo :=
  let agent_infos := p.2.map (fun s => s.current_agent_info)
  let batch := policies p.1 agent_infos
  (dictInsert acc.1 p.1 batch, writeSlices batch agent_infos 0 acc.2)

/-- `_take_step(previous_steps)`: returns the per-brain action map sent to the
worker and the updated `previous_agent_action_infos`. -/
def takeStep (policies : Policies) (previous_steps : Dict AgentStep)
    (infos : Dict AgentActionInfo) : Dict ActionInfo × Dict AgentActionInfo :=
  (groupByBrain previous_steps).foldl (takeStepBrain policies) ([], infos)

/-! ## `_queue_steps` -/

/-- The body of `_queue_steps`, threading the shared
`previous_agent_action_infos` map through the workers in pool order.  The
computed action map is sent across the process boundary and reappears only
through the worker's queued response, so it is not retained here. -/
def queueStepsGo (policies : Policies) :
    List UnityEnvWorker → Dict AgentActionInfo →
      List UnityEnvWorker × Dict AgentActionInfo
  | [], infos => ([], infos)
  | w :: rest, infos =>
      if w.waiting then
        let q := queueStepsGo policies rest infos
        (w :: q.1, q.2)
      else
        let infos1 := (takeStep policies w.previous_agent_steps infos).2
        let q := queueStepsGo policies rest infos1
        ({ w with waiting := true } :: q.1, q.2)

/-- `_queue_steps`: dispatch a step command to every worker with
`waiting = false`, recording dispatched per-agent action slices. -/
def SubprocessEnvManager.queueSteps (policies : Policies)
    (m : SubprocessEnvManager) : SubprocessEnvManager :=
  let q := queueStepsGo policies m.env_workers m.previous_agent_action_infos
  { m with env_workers := q.1, previous_agent_action_infos := q.2 }

/-! ## The drain loop of `step()` -/

/-- `self.env_workers[step.worker_id].waiting = False`.  Worker ids on the
shared queue are produced by workers `0..N-1`, so the index is in range in
every run of the real system. -/
def clearWaiting (ws : List UnityEnvWorker) (id : Nat) : List UnityEnvWorker :=
  match ws[id]? with
  | some w => ws.set id { w with waiting := false }
  | none => ws

/-- The inner `get_nowait` loop of `step()`: drain every queued response,
clear `waiting` for its worker, and keep the response iff its worker id has
not been seen in this call (`step_workers`).  Returns the kept responses in
drain order together with the updated workers. -/
def drainAll (ws : List UnityEnvWorker) (seen : List Nat) :
    List EnvironmentResponse →
      List EnvironmentResponse × List UnityEnvWorker
  | [] => ([], ws)
  | r :: rest =>
      let ws1 := clearWaiting ws r.worker_id
      if r.worker_id ∈ seen then drainAll ws1 seen rest
      else
        let d := drainAll ws1 (r.worker_id :: seen) rest
        (r :: d.1, d.2)

/-! ## `_postprocess_steps` -/

/-- Post-processing of one worker's `StepResponse`: for each observation, the
stored record is looked up by unguarded indexing
(`previous_agent_steps[agent_info.id]`), so a missing key fails the whole
call (`none` models the `KeyError`). -/
def postprocessBatch (infos : Dict AgentActionInfo) (w : UnityEnvWorker) :
    List AgentInfo → Option (List AgentStep × UnityEnvWorker)
  | [] => some ([], w)
  | info :: rest =>
      (dictGet w.previous_agent_steps info.id).bind fun prev =>
        let new_step : AgentStep :=
          { previous_agent_info := some prev.current_agent_info
            current_agent_info := info
            previous_action := dictGet infos info.id }
        let w1 :=
          { w with previous_agent_steps :=
              dictInsert w.previous_agent_steps info.id new_step }
        (postprocessBatch infos w1 rest).map fun p => (new_step :: p.1, p.2)

/-- `_postprocess_steps(env_steps)`: batches are processed in the order they
were collected; `none` models the `KeyError`/`IndexError` paths. -/
def postprocessSteps (infos : Dict AgentActionInfo)
    (ws : List UnityEnvWorker) :
    List EnvironmentResponse → Option (List AgentStep × List UnityEnvWorker)
  | [] => some ([], ws)
  | r :: rest =>
      ws[r.worker_id]?.bind fun w =>
        (postprocessBatch infos w r.payload.all_agent_info).bind fun p =>
          (postprocessSteps infos (ws.set r.worker_id p.2) rest).map fun q =>
            (p.1 ++ q.1, q.2)

/-! ## `step()` and `reset()` -/

/-- Outcome of one `step()` call.  `blocked` is the run in which the poll
loop never finds a queued response and spins forever; `failure` is an
exception raised in post-processing. -/
inductive StepOutcome where
  | blocked : StepOutcome
  | failure : StepOutcome
  | ok : List AgentStep → SubprocessEnvManager → StepOutcome
deriving DecidableEq

/-- The records of a successful step outcome (empty otherwise). -/
def okSteps : StepOutcome → List AgentStep
  | .ok steps _ => steps
  | _ => []

/-- `SubprocessEnvManager.step()`: queue steps for idle workers, drain the
shared queue until at least one worker's batch is collected, post-process. -/
def SubprocessEnvManager.step (policies : Policies)
    (m : SubprocessEnvManager) : StepOutcome :=
  if m.step_queue = [] then .blocked
  else
    match postprocessSteps (m.queueSteps policies).previous_agent_action_infos
        (drainAll (m.queueSteps policies).env_workers [] m.step_queue).2
        (drainAll (m.queueSteps policies).env_workers [] m.step_queue).1 with
    | none => .failure
    | some p =>
        .ok p.1
          { env_workers := p.2
            step_queue := []
            previous_agent_action_infos :=
              (m.queueSteps policies).previous_agent_action_infos }

/-- The pre-drain loop of `reset()`: while some worker is still waiting, pop
one queued response and clear that worker's flag.  `none` is the run in which
a waiting worker never responds and the loop spins forever. -/
def resetDrain :
    List UnityEnvWorker → List EnvironmentResponse →
      Option (List UnityEnvWorker × List EnvironmentResponse)
  | ws, [] => if ws.any (fun w => w.waiting) then none else some (ws, [])
  | ws, r :: rest =>
      if ws.any (fun w => w.waiting) then
        resetDrain (clearWaiting ws r.worker_id) rest
      else some (ws, r :: rest)

/-- Consumption of one worker's reset reply: each observation becomes an
initial `AgentStep(None, agent_info, None)`, stored and appended. -/
def resetRecvGo (w : UnityEnvWorker) :
    List AgentInfo → List AgentStep × UnityEnvWorker
  | [] => ([], w)
  | info :: rest =>
      let reset_step : AgentStep :=
        { previous_agent_info := none
          current_agent_info := info
          previous_action := none }
      let w1 :=
        { w with previous_agent_steps :=
            dictInsert w.previous_agent_steps info.id reset_step }
      let p := resetRecvGo w1 rest
      (reset_step :: p.1, p.2)

/-- Reset replies are received synchronously in worker (pool) order;
`resetObs i` is worker `i`'s reply on its private channel. -/
def resetRecvAll (resetObs : Nat → List AgentInfo) :
    List UnityEnvWorker → List AgentStep × List UnityEnvWorker
  | [] => ([], [])
  | w :: rest =>
      let p := resetRecvGo w (resetObs w.worker_id)
      let q := resetRecvAll resetObs rest
      (p.1 ++ q.1, p.2 :: q.2)

/-- `SubprocessEnvManager.reset()`: absorb outstanding step results, send
reset to every worker, then collect replies in worker order. -/
def SubprocessEnvManager.reset (resetObs : Nat → List AgentInfo)
    (m : SubprocessEnvManager) :
    Option (List AgentStep × SubprocessEnvManager) :=
  match resetDrain m.env_workers m.step_queue with
  | none => none
  | some (ws1, qRest) =>
      let p := resetRecvAll resetObs ws1
      some (p.1,
        { env_workers := p.2
          step_queue := qRest
          previous_agent_action_infos := m.previous_agent_action_infos })

/-! ## The worker loop's handling of a `step` command -/

/-- The state a worker's environment is in when a `step` command arrives.
The observation batches that `env.reset()` and `env.step(...)` would produce
are abstracted as data; their internal computation is outside this layer. -/
structure EnvState where
  global_done : Bool
  reset_obs : List AgentInfo
  step_obs : List AgentInfo
deriving DecidableEq

/-- The worker loop's `step` branch: when `env.global_done` holds it performs
an implicit `env.reset()` instead of applying the actions. -/
def worker_step (env : EnvState) (_all_action_info : Dict ActionInfo) :
    List AgentInfo :=
  if env.global_done then env.reset_obs else env.step_obs

/-! ## TrainerController -/

/-- A trainer as seen by the control loop's termination test. -/
structure Trainer where
  get_step : Nat
  get_max_steps : Nat
deriving DecidableEq

/-- `TrainerController._not_done_training`. -/
def not_done_training (trainers : Dict Trainer) (train_model : Bool) : Bool :=
  (trainers.any fun p => p.2.get_step ≤ p.2.get_max_steps) || !train_model

/-- The experience-dispatch loops of `TrainerController.advance`: for every
returned agent step, `add_experiences` / `process_experiences` is invoked on
every trainer in the registry.  An element `(bn, s)` is the dispatch of step
`s` to brain `bn`'s trainer. -/
def advanceDispatch (trainers : List String) (steps : List AgentStep) :
    List (String × AgentStep) :=
  steps.flatMap fun s => trainers.map fun bn => (bn, s)

/-! ## The per-agent slice a dispatch round records, stated independently

`dispatchedSlice` says, directly in terms of the worker's stored steps, which
per-agent slice of which policy batch `_take_step` dispatches to a given
agent: the agent's brain group is the subsequence of stored steps whose
current observation carries the same brain name, the policy is invoked once
on that group, and the agent receives the batch entry at its position in the
group. -/
def dispatchedSlice (policies : Policies) (prev_steps : Dict AgentStep)
    (agent_id : String) : Option AgentActionInfo :=
  match dictGet prev_steps agent_id with
  | none => none
  | some r =>
      let bn := r.current_agent_info.brain_name
      let group :=
        (prev_steps.filter fun p =>
            p.2.current_agent_info.brain_name == bn).map
          fun p => p.2.current_agent_info
      some (sliceAt (policies bn group)
        (group.findIdx fun a => a.id == agent_id))

/-- The invariant, maintained by `reset` and `_postprocess_steps`, that a
worker's stored step for key `k` has a current observation with id `k`. -/
def KeyConsistent (d : Dict AgentStep) : Prop :=
  ∀ p ∈ d, p.2.current_agent_info.id = p.1

/-! ## The coordinator's waiting-flag discipline as a transition system

The pure functions above take the queue contents as given; the `waiting`
protocol of C7 is about every interleaving of coordinator dispatch
(`_queue_steps`), worker completion (the worker loop's `step_queue.put`) and
coordinator drains (the `get_nowait` calls of `step()` and `reset()`), so it
is stated over an explicit small-step system on the flags. -/

/-- One worker as the protocol sees it: its coordinator-side `waiting` flag
and the number of step commands sent on its pipe and not yet answered by the
worker process. -/
structure WorkerFlags where
  waiting : Bool
  pending : Nat
deriving DecidableEq

/-- Protocol state: per-worker flags (indexed by worker id) and the worker
ids of the responses sitting in the shared step queue. -/
structure CoordState where
  workers : List WorkerFlags
  queue : List Nat
deriving DecidableEq

/-- `_queue_steps`: every worker with `waiting = false` is sent one step
command and marked waiting; waiting workers are left alone. -/
def dispatchAll (s : CoordState) : CoordState :=
  { workers := s.workers.map fun w =>
      if w.waiting then w else { waiting := true, pending := w.pending + 1 }
    queue := s.queue }

/-- `self.env_workers[i].waiting = False` on the flags. -/
def clearFlag (ws : List WorkerFlags) (i : Nat) : List WorkerFlags :=
  match ws[i]? with
  | some w => ws.set i { w with waiting := false }
  | none => ws

/-- The number of unanswered step commands on worker `i`'s pipe. -/
def pendingAt (s : CoordState) (i : Nat) : Nat :=
  match s.workers[i]? with
  | some w => w.pending
  | none => 0

/-- Worker `i`'s `waiting` flag. -/
def waitingAt (s : CoordState) (i : Nat) : Bool :=
  match s.workers[i]? with
  | some w => w.waiting
  | none => false

/-- Step commands sent to worker `i` and not yet consumed by the
coordinator: unanswered commands plus queued-but-undrained responses. -/
def inflight (s : CoordState) (i : Nat) : Nat :=
  pendingAt s i + s.queue.count i

/-- The events of the protocol: a coordinator dispatch round, a worker
answering one pending command onto the shared queue, and the coordinator
draining the head response (the `get_nowait` of `step()` or `reset()`). -/
inductive CoordEvent : CoordState → CoordState → Prop where
  | dispatch (s : CoordState) : CoordEvent s (dispatchAll s)
  | respond (s : CoordState) (i : Nat) (w : WorkerFlags)
      (h : s.workers[i]? = some w) (hp : 1 ≤ w.pending) :
      CoordEvent s
        { workers := s.workers.set i { w with pending := w.pending - 1 }
          queue := s.queue ++ [i] }
  | drain (s : CoordState) (i : Nat) (rest : List Nat)
      (h : s.queue = i :: rest) :
      CoordEvent s { workers := clearFlag s.workers i, queue := rest }

/-- Pool construction: `n` workers, none waiting, nothing in flight. -/
def coordInit (n : Nat) : CoordState :=
  { workers := List.replicate n ⟨false, 0⟩, queue := [] }

/-- States reachable from pool construction by any event interleaving. -/
def CoordReachable (n : Nat) (s : CoordState) : Prop :=
  Relation.ReflTransGen CoordEvent (coordInit n) s

/-- The C7 invariant: never more than one command in flight per worker, and
`waiting` is true exactly when one is in flight. -/
def CoordInv (s : CoordState) : Prop :=
  ∀ i : Nat, inflight s i ≤ 1 ∧ (waitingAt s i = true ↔ inflight s i = 1)

/-! ## Concrete scenarios used by witnesses and counterexamples -/

/-- A concrete policy: each agent is dispatched its own current observation
value as action. -/
def constPolicies : Policies := fun _ infos =>
  { action := infos.map fun i => i.obs
    memory := none
    text := none
    value := none }

/-- Quorum scenario: two workers mid-step; only worker 1 has responded. -/
def mgrQuorum : SubprocessEnvManager :=
  { env_workers :=
      [⟨0, [("a1", ⟨none, ⟨"a1", "B", 0⟩, none⟩)], true⟩,
       ⟨1, [("b1", ⟨none, ⟨"b1", "B", 1⟩, none⟩)], true⟩]
    step_queue := [⟨1, ⟨[⟨"b1", "B", 11⟩]⟩⟩]
    previous_agent_action_infos := [] }

/-- Drain-order scenario: worker 0 is still mid-step from the previous call,
worker 1 is idle; by drain time worker 1's fresh result arrived first and
worker 0's older one second. -/
def mgrDrainOrder : SubprocessEnvManager :=
  { env_workers :=
      [⟨0, [("a1", ⟨none, ⟨"a1", "B", 0⟩, none⟩)], true⟩,
       ⟨1, [("b1", ⟨none, ⟨"b1", "B", 1⟩, none⟩),
            ("b2", ⟨none, ⟨"b2", "B", 2⟩, none⟩)], false⟩]
    step_queue :=
      [⟨1, ⟨[⟨"b1", "B", 11⟩, ⟨"b2", "B", 12⟩]⟩⟩,
       ⟨0, ⟨[⟨"a1", "B", 10⟩]⟩⟩]
    previous_agent_action_infos := [] }

/-- An environment that reports a global-done condition when the step
command arrives. -/
def envDone : EnvState :=
  { global_done := true
    reset_obs := [⟨"a", "B", 5⟩]
    step_obs := [⟨"a", "B", 99⟩] }

/-- Auto-reset scenario: one worker, mid-step, whose environment hit
`global_done`; its queued response is what the worker loop produced. -/
def mgrAutoReset : SubprocessEnvManager :=
  { env_workers := [⟨0, [("a", ⟨none, ⟨"a", "B", 0⟩, none⟩)], true⟩]
    step_queue := [⟨0, ⟨worker_step envDone []⟩⟩]
    previous_agent_action_infos := [] }

/-- Clobber scenario: two idle workers whose single agents share the id
`"a"`; worker 0's result arrives within this call's poll window. -/
def mgrClobber : SubprocessEnvManager :=
  { env_workers :=
      [⟨0, [("a", ⟨none, ⟨"a", "B", 0⟩, none⟩)], false⟩,
       ⟨1, [("a", ⟨none, ⟨"a", "B", 1⟩, none⟩)], false⟩]
    step_queue := [⟨0, ⟨[⟨"a", "B", 10⟩]⟩⟩]
    previous_agent_action_infos := [] }

/-- A one-worker pool whose idle worker's result arrives within the call's
poll window. -/
def mgrSingle : SubprocessEnvManager :=
  { env_workers := [⟨0, [("a", ⟨none, ⟨"a", "B", 0⟩, none⟩)], false⟩]
    step_queue := [⟨0, ⟨[⟨"a", "B", 10⟩]⟩⟩]
    previous_agent_action_infos := [] }

/-- A freshly constructed two-worker pool, before its first reset. -/
def mgrFresh : SubprocessEnvManager :=
  { env_workers := [⟨0, [], false⟩, ⟨1, [], false⟩]
    step_queue := []
    previous_agent_action_infos := [] }

/-- Reset replies for `mgrFresh`: worker 0 reports one agent, worker 1 two. -/
def resetObsEx : Nat → List AgentInfo := fun i =>
  if i = 0 then [⟨"a1", "B", 0⟩] else [⟨"b1", "B", 1⟩, ⟨"b2", "B", 2⟩]

/-- The records `mgrFresh.reset resetObsEx` returns. -/
def resetStepsEx : List AgentStep :=
  [⟨none, ⟨"a1", "B", 0⟩, none⟩,
   ⟨none, ⟨"b1", "B", 1⟩, none⟩,
   ⟨none, ⟨"b2", "B", 2⟩, none⟩]

/-- The manager state after `mgrFresh.reset resetObsEx`. -/
def mgrAfterReset : SubprocessEnvManager :=
  { env_workers :=
      [⟨0, [("a1", ⟨none, ⟨"a1", "B", 0⟩, none⟩)], false⟩,
       ⟨1, [("b1", ⟨none, ⟨"b1", "B", 1⟩, none⟩),
            ("b2", ⟨none, ⟨"b2", "B", 2⟩, none⟩)], false⟩]
    step_queue := []
    previous_agent_action_infos := [] }

/-! ## Basic dictionary lemmas -/

theorem dictGet_insert_self {α : Type} (d : Dict α) (k : String) (v : α) :
    dictGet (dictInsert d k v) k = some v := by
  induction d with
  | nil => simp [dictGet, dictInsert]
  | cons p rest ih =>
      by_cases h : p.1 = k
      · simp [dictGet, dictInsert, h]
      · simp [dictGet, dictInsert, h, ih]

theorem dictGet_insert_of_ne {α : Type} (d : Dict α) {k k' : String} (v : α)
    (h : k' ≠ k) : dictGet (dictInsert d k v) k' = dictGet d k' := by
  have hk : k ≠ k' := Ne.symm h
  induction d with
  | nil => simp [dictGet, dictInsert, hk]
  | cons p rest ih =>
      by_cases hp : p.1 = k
      · simp only [dictInsert, if_pos hp]
        simp [dictGet, hp, hk]
      · simp only [dictInsert, if_neg hp]
        by_cases hp' : p.1 = k'
        · simp [dictGet, hp']
        · simp [dictGet, hp', ih]

/-- Replacing a binding that is already present does not change which keys
are present. -/
theorem dictGet_insert_isSome_of_mem {α : Type} {d : Dict α} {k : String}
    {u : α} (v : α) (h : dictGet d k = some u) (k' : String) :
    (dictGet (dictInsert d k v) k').isSome = (dictGet d k').isSome := by
  by_cases hk : k' = k
  · subst hk
    simp [dictGet_insert_self, h]
  · simp [dictGet_insert_of_ne d v hk]

theorem dictGet_insert_isSome_mono {α : Type} {d : Dict α} {k k' : String}
    (v : α) (h : (dictGet d k').isSome) :
    (dictGet (dictInsert d k v) k').isSome := by
  by_cases hk : k' = k
  · subst hk; simp [dictGet_insert_self]
  · simpa [dictGet_insert_of_ne d v hk] using h

/-! ## Lemmas about the `step()` drain loop -/

theorem drainAll_nodup_aux (q : List EnvironmentResponse) :
    ∀ (ws : List UnityEnvWorker) (seen : List Nat),
      ((drainAll ws seen q).1.map EnvironmentResponse.worker_id).Nodup ∧
        ∀ r ∈ (drainAll ws seen q).1, r.worker_id ∉ seen := by
  induction q with
  | nil => intro ws seen; simp [drainAll]
  | cons r rest ih =>
      intro ws seen
      by_cases h : r.worker_id ∈ seen
      · simpa [drainAll, h] using ih (clearWaiting ws r.worker_id) seen
      · have ih1 := ih (clearWaiting ws r.worker_id) (r.worker_id :: seen)
        simp only [drainAll, if_neg h, List.map_cons, List.nodup_cons,
          List.mem_cons, List.mem_map]
        refine ⟨⟨?_, ih1.1⟩, ?_⟩
        · rintro ⟨r', hr', he⟩
          exact (ih1.2 r' hr') (he ▸ List.mem_cons_self _ _)
        · rintro r' (rfl | hr')
          · exact h
          · intro hmem
            exact (ih1.2 r' hr') (List.mem_cons_of_mem _ hmem)

theorem drainAll_fst_subset (q : List EnvironmentResponse) :
    ∀ (ws : List UnityEnvWorker) (seen : List Nat),
      ∀ r ∈ (drainAll ws seen q).1, r ∈ q := by
  induction q with
  | nil => intro ws seen; simp [drainAll]
  | cons r rest ih =>
      intro ws seen r'
      by_cases h : r.worker_id ∈ seen
      · simp only [drainAll, if_pos h]
        intro hr'
        exact List.mem_cons_of_mem _ (ih _ _ _ hr')
      · simp only [drainAll, if_neg h, List.mem_cons]
        rintro (rfl | hr')
        · exact Or.inl rfl
        · exact Or.inr (ih _ _ _ hr')

/-- C8: within a single `step()` call, a drained response whose worker id was
already collected is skipped, so the result set never holds two batches for
the same worker id. -/
theorem step_result_set_no_duplicate_workers (ws : List UnityEnvWorker)
    (q : List EnvironmentResponse) :
    ((drainAll ws [] q).1.map EnvironmentResponse.worker_id).Nodup :=
  (drainAll_nodup_aux q ws []).1

/-! ## C4: experience dispatch in `TrainerController.advance` -/

/-- C4 (counterexample): a `StepRecord` owned by brain `"A"` is also
dispatched to brain `"B"`'s trainer — `advance` loops over every trainer for
every record. -/
theorem dispatch_reaches_foreign_trainer_cex :
    (("B", (⟨none, ⟨"x", "A", 0⟩, none⟩ : AgentStep)) ∈
        advanceDispatch ["A", "B"] [⟨none, ⟨"x", "A", 0⟩, none⟩]) ∧
      (⟨"x", "A", 0⟩ : AgentInfo).brain_name ≠ "B" := by
  constructor
  · simp [advanceDispatch]
  · decide

/-- C4 (amended): each returned `StepRecord` is dispatched (add experience,
process experience) to every trainer in the registry — the owning brain's and
every other brain's alike. -/
theorem step_record_dispatched_to_every_trainer (trainers : List String)
    (steps : List AgentStep) (bn : String) (s : AgentStep)
    (hs : s ∈ steps) (hb : bn ∈ trainers) :
    (bn, s) ∈ advanceDispatch trainers steps := by
  simp only [advanceDispatch, List.mem_flatMap, List.mem_map]
  exact ⟨s, hs, bn, hb, rfl⟩

/-- Witness for `step_record_dispatched_to_every_trainer`. -/
theorem step_record_dispatched_to_every_trainer_witness :
    (("A", (⟨none, ⟨"x", "A", 0⟩, none⟩ : AgentStep)) ∈
      advanceDispatch ["A", "B"] [⟨none, ⟨"x", "A", 0⟩, none⟩]) :=
  step_record_dispatched_to_every_trainer _ _ _ _ (by decide) (by decide)

/-! ## C5: the training-loop guard -/

/-- C5 (counterexample): with a single trainer whose step counter `11` already
exceeds its maximum `10`, the loop guard `_not_done_training` still evaluates
to `true` in inference-only mode, so the loop does not stop after a single
pass (it never becomes false). -/
theorem inference_mode_loop_guard_cex :
    not_done_training [("A", ⟨11, 10⟩)] false = true ∧ (10 : Nat) < 11 := by
  decide

/-- C5 (amended): in training mode the loop guard becomes false exactly when
every trainer's step counter exceeds its configured maximum; in inference-only
mode (`train=false`) the guard is identically true, so the loop never
terminates on its own. -/
theorem training_loop_guard_characterization :
    (∀ trainers : Dict Trainer,
        (not_done_training trainers true = false ↔
          ∀ p ∈ trainers, p.2.get_max_steps < p.2.get_step)) ∧
      ∀ trainers : Dict Trainer, not_done_training trainers false = true := by
  constructor
  · intro trainers
    simp [not_done_training, Nat.not_le]
  · intro trainers
    simp [not_done_training]

/-- Witness for `training_loop_guard_characterization`. -/
theorem training_loop_guard_characterization_witness :
    not_done_training [("A", ⟨11, 10⟩)] true = false :=
  (training_loop_guard_characterization.1 _).mpr (by decide)

/-! ## Further dictionary lemmas (for the dispatch-slice analysis) -/

theorem dictGet_some_mem {α : Type} {d : Dict α} {k : String} {v : α}
    (h : dictGet d k = some v) : (k, v) ∈ d := by
  induction d with
  | nil => simp [dictGet] at h
  | cons p rest ih =>
      rw [dictGet] at h
      by_cases hp : p.1 = k
      · rw [if_pos hp] at h
        exact List.mem_cons.mpr
          (Or.inl (Prod.ext hp (Option.some_inj.mp h)).symm)
      · rw [if_neg hp] at h
        exact List.mem_cons_of_mem _ (ih h)

theorem mem_dictInsert {α : Type} {d : Dict α} {k : String} {v : α}
    {q : String × α} (h : q ∈ dictInsert d k v) : q = (k, v) ∨ q ∈ d := by
  induction d with
  | nil => simpa [dictInsert] using h
  | cons p rest ih =>
      rw [dictInsert] at h
      by_cases hp : p.1 = k
      · rw [if_pos hp] at h
        rcases List.mem_cons.mp h with rfl | hq
        · exact Or.inl rfl
        · exact Or.inr (List.mem_cons_of_mem _ hq)
      · rw [if_neg hp] at h
        rcases List.mem_cons.mp h with rfl | hq
        · exact Or.inr (List.mem_cons_self _ _)
        · rcases ih hq with h1 | h2
          · exact Or.inl h1
          · exact Or.inr (List.mem_cons_of_mem _ h2)

theorem dictKeys_insert_nodup {α : Type} {d : Dict α} (k : String) (v : α)
    (h : (dictKeys d).Nodup) : (dictKeys (dictInsert d k v)).Nodup := by
  induction d with
  | nil => simp [dictKeys, dictInsert]
  | cons p rest ih =>
      rw [dictKeys, List.map_cons, List.nodup_cons] at h
      by_cases hp : p.1 = k
      · rw [dictInsert, if_pos hp]
        rw [dictKeys, List.map_cons, List.nodup_cons]
        exact ⟨hp ▸ h.1, h.2⟩
      · rw [dictInsert, if_neg hp]
        rw [dictKeys, List.map_cons, List.nodup_cons]
        refine ⟨?_, ih h.2⟩
        intro hmem
        rcases List.mem_map.mp hmem with ⟨q, hq, hq1⟩
        rcases mem_dictInsert hq with rfl | hq2
        · exact hp hq1.symm
        · exact h.1 (hq1 ▸ List.mem_map_of_mem Prod.fst hq2)

theorem dictGet_of_mem_nodup {α : Type} {d : Dict α} {k : String} {v : α}
    (hn : (dictKeys d).Nodup) (h : (k, v) ∈ d) : dictGet d k = some v := by
  induction d with
  | nil => simp at h
  | cons p rest ih =>
      rw [dictKeys, List.map_cons, List.nodup_cons] at hn
      rcases List.mem_cons.mp h with rfl | hmem
      · simp [dictGet]
      · rw [dictGet]
        by_cases hp : p.1 = k
        · exact absurd (hp ▸ List.mem_map_of_mem Prod.fst hmem) hn.1
        · rw [if_neg hp]
          exact ih hn.2 hmem

theorem dictGet_some_split {α : Type} {d : Dict α} {k : String} {v : α}
    (h : dictGet d k = some v) :
    ∃ d1 d2, d = d1 ++ (k, v) :: d2 ∧ ∀ q ∈ d1, q.1 ≠ k := by
  induction d with
  | nil => simp [dictGet] at h
  | cons p rest ih =>
      rw [dictGet] at h
      by_cases hp : p.1 = k
      · rw [if_pos hp] at h
        refine ⟨[], rest, ?_, by simp⟩
        rw [@Prod.ext _ _ p (k, v) hp (Option.some_inj.mp h)]
        rfl
      · rw [if_neg hp] at h
        obtain ⟨d1, d2, hd, hne⟩ := ih h
        refine ⟨p :: d1, d2, by rw [hd]; rfl, ?_⟩
        intro q hq
        rcases List.mem_cons.mp hq with rfl | hq'
        · exact hp
        · exact hne q hq'

/-! ## Characterizing `groupByBrain` -/

/-- The brain-name test used by the grouping loop. -/
def brainPred (bn : String) (p : String × AgentStep) : Bool :=
  p.2.current_agent_info.brain_name == bn

theorem dictGet_groupStep (acc : Dict (List AgentStep))
    (p : String × AgentStep) (bn : String) :
    dictGet (groupStep acc p) bn =
      if p.2.current_agent_info.brain_name = bn then
        some ((dictGet acc p.2.current_agent_info.brain_name).getD []
          ++ [p.2])
      else dictGet acc bn := by
  cases hb : dictGet acc p.2.current_agent_info.brain_name with
  | none =>
      by_cases hbn : p.2.current_agent_info.brain_name = bn
      · simp only [groupStep, hb]
        rw [if_pos hbn, ← hbn, dictGet_insert_self]
        rfl
      · simp only [groupStep, hb]
        rw [if_neg hbn, dictGet_insert_of_ne _ _ (fun he => hbn he.symm)]
  | some ss =>
      by_cases hbn : p.2.current_agent_info.brain_name = bn
      · simp only [groupStep, hb]
        rw [if_pos hbn, ← hbn, dictGet_insert_self]
        rfl
      · simp only [groupStep, hb]
        rw [if_neg hbn, dictGet_insert_of_ne _ _ (fun he => hbn he.symm)]

theorem groupFold_get_some (l : Dict AgentStep) :
    ∀ (acc : Dict (List AgentStep)) (bn : String) (ss0 : List AgentStep),
      dictGet acc bn = some ss0 →
        dictGet (l.foldl groupStep acc) bn =
          some (ss0 ++ (l.filter (brainPred bn)).map Prod.snd) := by
  induction l with
  | nil => intro acc bn ss0 h; simpa using h
  | cons p t ih =>
      intro acc bn ss0 h
      rw [List.foldl_cons]
      by_cases hbn : p.2.current_agent_info.brain_name = bn
      · have hacc : dictGet (groupStep acc p) bn = some (ss0 ++ [p.2]) := by
          rw [dictGet_groupStep, if_pos hbn, hbn, h]
          rfl
        rw [ih _ _ _ hacc]
        have hfil : (p :: t).filter (brainPred bn) =
            p :: t.filter (brainPred bn) := by
          simp [List.filter_cons, brainPred, hbn]
        rw [hfil, List.map_cons, List.append_assoc]
        rfl
      · have hacc : dictGet (groupStep acc p) bn = some ss0 := by
          rw [dictGet_groupStep, if_neg hbn, h]
        rw [ih _ _ _ hacc]
        have hfil : (p :: t).filter (brainPred bn) =
            t.filter (brainPred bn) := by
          simp [List.filter_cons, brainPred, hbn]
        rw [hfil]

theorem groupFold_get_none (l : Dict AgentStep) :
    ∀ (acc : Dict (List AgentStep)) (bn : String),
      dictGet acc bn = none →
        dictGet (l.foldl groupStep acc) bn =
          if l.filter (brainPred bn) = [] then none
          else some ((l.filter (brainPred bn)).map Prod.snd) := by
  induction l with
  | nil => intro acc bn h; simpa using h
  | cons p t ih =>
      intro acc bn h
      rw [List.foldl_cons]
      by_cases hbn : p.2.current_agent_info.brain_name = bn
      · have hacc : dictGet (groupStep acc p) bn = some [p.2] := by
          rw [dictGet_groupStep, if_pos hbn, hbn, h]
          rfl
        rw [groupFold_get_some t _ _ _ hacc]
        have hfil : (p :: t).filter (brainPred bn) =
            p :: t.filter (brainPred bn) := by
          simp [List.filter_cons, brainPred, hbn]
        rw [hfil]
        simp
      · have hacc : dictGet (groupStep acc p) bn = none := by
          rw [dictGet_groupStep, if_neg hbn, h]
        rw [ih _ _ hacc]
        have hfil : (p :: t).filter (brainPred bn) =
            t.filter (brainPred bn) := by
          simp [List.filter_cons, brainPred, hbn]
        rw [hfil]

theorem groupByBrain_keys_nodup (l : Dict AgentStep) :
    ∀ acc : Dict (List AgentStep), (dictKeys acc).Nodup →
      (dictKeys (l.foldl groupStep acc)).Nodup := by
  induction l with
  | nil => intro acc h; simpa using h
  | cons p t ih =>
      intro acc h
      rw [List.foldl_cons]
      refine ih _ ?_
      cases hb : dictGet acc p.2.current_agent_info.brain_name with
      | none =>
          simp only [groupStep, hb]
          exact dictKeys_insert_nodup _ _ h
      | some ss =>
          simp only [groupStep, hb]
          exact dictKeys_insert_nodup _ _ h

/-- Every member of a bucket of the grouping fold satisfies any property `P`
that holds of the seed buckets and of each grouped step at its own brain. -/
theorem groupFold_members (P : String → AgentStep → Prop)
    (l : Dict AgentStep) :
    ∀ acc : Dict (List AgentStep),
      (∀ q ∈ acc, ∀ a ∈ q.2, P q.1 a) →
      (∀ p ∈ l, P p.2.current_agent_info.brain_name p.2) →
      ∀ q ∈ l.foldl groupStep acc, ∀ a ∈ q.2, P q.1 a := by
  induction l with
  | nil => intro acc hacc _; simpa using hacc
  | cons p t ih =>
      intro acc hacc hl
      rw [List.foldl_cons]
      refine ih _ ?_ fun p' hp' => hl p' (List.mem_cons_of_mem _ hp')
      intro q hq a ha
      cases hb : dictGet acc p.2.current_agent_info.brain_name with
      | none =>
          simp only [groupStep, hb] at hq
          rcases mem_dictInsert hq with rfl | hq2
          · rcases List.mem_singleton.mp ha with rfl
            exact hl p (List.mem_cons_self _ _)
          · exact hacc q hq2 a ha
      | some ss =>
          simp only [groupStep, hb] at hq
          rcases mem_dictInsert hq with rfl | hq2
          · rcases List.mem_append.mp ha with ha1 | ha2
            · exact hacc _ (dictGet_some_mem hb) a ha1
            · rcases List.mem_singleton.mp ha2 with rfl
              exact hl p (List.mem_cons_self _ _)
          · exact hacc q hq2 a ha

/-! ## What `_take_step` records under a given agent id -/

theorem writeSlices_get_of_ne (batch : ActionInfo) (k : String) :
    ∀ (ais : List AgentInfo) (idx : Nat) (infos : Dict AgentActionInfo),
      (∀ a ∈ ais, a.id ≠ k) →
        dictGet (writeSlices batch ais idx infos) k = dictGet infos k := by
  intro ais
  induction ais with
  | nil => intro idx infos _; rfl
  | cons a rest ih =>
      intro idx infos h
      rw [writeSlices, ih _ _ fun b hb => h b (List.mem_cons_of_mem _ hb)]
      exact dictGet_insert_of_ne _ _
        fun he => h a (List.mem_cons_self _ _) he.symm

theorem writeSlices_get_of_mem (batch : ActionInfo) (k : String) :
    ∀ (u : List AgentInfo) (a : AgentInfo) (v : List AgentInfo) (idx : Nat)
      (infos : Dict AgentActionInfo),
      a.id = k → (∀ b ∈ v, b.id ≠ k) →
        dictGet (writeSlices batch (u ++ a :: v) idx infos) k =
          some (sliceAt batch (idx + u.length)) := by
  intro u
  induction u with
  | nil =>
      intro a v idx infos ha hv
      rw [List.nil_append, writeSlices,
        writeSlices_get_of_ne batch k v _ _ hv, ha, dictGet_insert_self]
      simp
  | cons b u ih =>
      intro a v idx infos ha hv
      rw [List.cons_append, writeSlices, ih a v (idx + 1) _ ha hv]
      have harith : idx + 1 + u.length = idx + (b :: u).length := by
        simp [List.length_cons]
        omega
      rw [harith]

theorem findIdx_append_first (pb : AgentInfo → Bool) :
    ∀ (u : List AgentInfo) (a : AgentInfo) (v : List AgentInfo),
      (∀ b ∈ u, pb b = false) → pb a = true →
        (u ++ a :: v).findIdx pb = u.length := by
  intro u
  induction u with
  | nil => intro a v _ hpa; simp [List.findIdx_cons, hpa]
  | cons b u ih =>
      intro a v hu hpa
      rw [List.cons_append, List.findIdx_cons,
        hu b (List.mem_cons_self _ _)]
      simp [ih a v (fun c hc => hu c (List.mem_cons_of_mem _ hc)) hpa]

theorem takeStepFold_get_of_ne (policies : Policies) (k : String) :
    ∀ (groups : Dict (List AgentStep))
      (acc : Dict ActionInfo × Dict AgentActionInfo),
      (∀ q ∈ groups, ∀ s ∈ q.2, s.current_agent_info.id ≠ k) →
        dictGet (groups.foldl (takeStepBrain policies) acc).2 k =
          dictGet acc.2 k := by
  intro groups
  induction groups with
  | nil => intro acc _; rfl
  | cons g t ih =>
      intro acc h
      rw [List.foldl_cons, ih _ fun q hq => h q (List.mem_cons_of_mem _ hq)]
      simp only [takeStepBrain]
      rw [writeSlices_get_of_ne]
      intro b hb
      rcases List.mem_map.mp hb with ⟨s, hs, rfl⟩
      exact h g (List.mem_cons_self _ _) s hs

theorem takeStepFold_get_of_mem (policies : Policies) (k : String)
    (bn0 : String) (ss0 : List AgentStep) (u : List AgentInfo)
    (a : AgentInfo) (v : List AgentInfo)
    (hsplit : ss0.map (fun s => s.current_agent_info) = u ++ a :: v)
    (ha : a.id = k) (hv : ∀ b ∈ v, b.id ≠ k) :
    ∀ (gpre gpost : Dict (List AgentStep))
      (acc : Dict ActionInfo × Dict AgentActionInfo),
      (∀ q ∈ gpost, ∀ s ∈ q.2, s.current_agent_info.id ≠ k) →
        dictGet ((gpre ++ (bn0, ss0) :: gpost).foldl
            (takeStepBrain policies) acc).2 k =
          some (sliceAt
            (policies bn0 (ss0.map fun s => s.current_agent_info))
            u.length) := by
  intro gpre
  induction gpre with
  | nil =>
      intro gpost acc hpost
      rw [List.nil_append, List.foldl_cons,
        takeStepFold_get_of_ne policies k gpost _ hpost]
      simp only [takeStepBrain]
      rw [hsplit, writeSlices_get_of_mem _ _ u a v 0 _ ha hv]
      simp
  | cons g t ih =>
      intro gpost acc hpost
      rw [List.cons_append, List.foldl_cons]
      exact ih gpost _ hpost

theorem takeStep_get_of_ne (policies : Policies)
    (prev : Dict AgentStep) (k : String)
    (h : ∀ p ∈ prev, p.2.current_agent_info.id ≠ k)
    (infos : Dict AgentActionInfo) :
    dictGet (takeStep policies prev infos).2 k = dictGet infos k := by
  unfold takeStep
  rw [takeStepFold_get_of_ne]
  intro q hq s hs
  have hmem := groupFold_members
    (fun _ s => ∃ p ∈ prev, p.2 = s) prev []
    (by simp) (fun p hp => ⟨p, hp, rfl⟩) q hq s hs
  obtain ⟨p, hp, rfl⟩ := hmem
  exact h p hp

/-- `_take_step` records, for an agent id present in the worker's stored
steps, exactly the `dispatchedSlice` of the policy batch for the agent's
brain group. -/
theorem takeStep_get_of_mem (policies : Policies)
    (prev : Dict AgentStep) (k : String) (r : AgentStep)
    (hn : (dictKeys prev).Nodup) (hkc : KeyConsistent prev)
    (hget : dictGet prev k = some r)
    (infos : Dict AgentActionInfo) :
    dictGet (takeStep policies prev infos).2 k =
      dispatchedSlice policies prev k := by
  have hmem : (k, r) ∈ prev := dictGet_some_mem hget
  have hkr : r.current_agent_info.id = k := hkc (k, r) hmem
  have hpred : brainPred r.current_agent_info.brain_name (k, r) = true := by
    simp [brainPred]
  have hmemf : (k, r) ∈
      prev.filter (brainPred r.current_agent_info.brain_name) :=
    List.mem_filter.mpr ⟨hmem, hpred⟩
  have hfilne :
      prev.filter (brainPred r.current_agent_info.brain_name) ≠ [] :=
    List.ne_nil_of_mem hmemf
  have hgrp : dictGet (groupByBrain prev) r.current_agent_info.brain_name =
      some ((prev.filter (brainPred r.current_agent_info.brain_name)).map
        Prod.snd) := by
    unfold groupByBrain
    rw [groupFold_get_none prev [] _ rfl, if_neg hfilne]
  have hnf : (dictKeys
      (prev.filter (brainPred r.current_agent_info.brain_name))).Nodup :=
    List.Nodup.sublist ((List.filter_sublist _).map Prod.fst) hn
  have hgetf : dictGet
      (prev.filter (brainPred r.current_agent_info.brain_name)) k =
        some r := dictGet_of_mem_nodup hnf hmemf
  obtain ⟨f1, f2, hfsplit, hf1⟩ := dictGet_some_split hgetf
  have hf2 : ∀ q ∈ f2, q.1 ≠ k := by
    have hkeys : dictKeys
        (prev.filter (brainPred r.current_agent_info.brain_name)) =
          f1.map Prod.fst ++ k :: f2.map Prod.fst := by
      rw [hfsplit]
      simp [dictKeys]
    rw [hkeys] at hnf
    have h2 := (List.nodup_cons.mp (List.Nodup.of_append_right hnf)).1
    intro q hq hqk
    exact h2 (hqk ▸ List.mem_map_of_mem Prod.fst hq)
  -- the group fold decomposition of groupByBrain at the agent's brain
  have hgk : (dictKeys (groupByBrain prev)).Nodup :=
    groupByBrain_keys_nodup prev [] (by simp [dictKeys])
  obtain ⟨g1, g2, hgsplit, hg1⟩ := dictGet_some_split hgrp
  have hg2keys : ∀ q ∈ g2, q.1 ≠ r.current_agent_info.brain_name := by
    have hkeys : dictKeys (groupByBrain prev) =
        g1.map Prod.fst ++ r.current_agent_info.brain_name ::
          g2.map Prod.fst := by
      rw [hgsplit]
      simp [dictKeys]
    rw [hkeys] at hgk
    have h2 := (List.nodup_cons.mp (List.Nodup.of_append_right hgk)).1
    intro q hq hqk
    exact h2 (hqk ▸ List.mem_map_of_mem Prod.fst hq)
  have hmembers := groupFold_members
    (fun bn s => s.current_agent_info.brain_name = bn ∧ ∃ p ∈ prev, p.2 = s)
    prev [] (by simp) (fun p hp => ⟨rfl, p, hp, rfl⟩)
  have hpost : ∀ q ∈ g2, ∀ s ∈ q.2, s.current_agent_info.id ≠ k := by
    intro q hq s hs hsk
    have hqall : q ∈ groupByBrain prev := by
      rw [hgsplit]
      exact List.mem_append.mpr (Or.inr (List.mem_cons_of_mem _ hq))
    obtain ⟨hbrain, p, hp, rfl⟩ := hmembers q hqall s hs
    have hpk : p.1 = k := (hkc p hp) ▸ hsk
    have : dictGet prev p.1 = some p.2 := dictGet_of_mem_nodup hn
      (by obtain ⟨p1, p2⟩ := p; exact hp)
    rw [hpk, hget] at this
    have hpr : p.2 = r := Option.some_inj.mp this.symm
    exact hg2keys q hq (hbrain ▸ hpr ▸ rfl)
  -- decompose the brain group's agent infos around the agent
  have hsplit : ((prev.filter
      (brainPred r.current_agent_info.brain_name)).map Prod.snd).map
        (fun s => s.current_agent_info) =
      (f1.map fun p => p.2.current_agent_info) ++
        r.current_agent_info ::
          (f2.map fun p => p.2.current_agent_info) := by
    rw [hfsplit]
    simp only [List.map_append, List.map_cons, List.map_map]
    rfl
  have hvne : ∀ b ∈ f2.map fun p => p.2.current_agent_info, b.id ≠ k := by
    intro b hb
    rcases List.mem_map.mp hb with ⟨q, hq, rfl⟩
    have hqprev : q ∈ prev := List.mem_of_mem_filter
      (hfsplit ▸ List.mem_append.mpr
        (Or.inr (List.mem_cons_of_mem _ hq)))
    rw [hkc q hqprev]
    exact hf2 q hq
  have hfold := takeStepFold_get_of_mem policies k
    r.current_agent_info.brain_name
    ((prev.filter (brainPred r.current_agent_info.brain_name)).map Prod.snd)
    (f1.map fun p => p.2.current_agent_info) r.current_agent_info
    (f2.map fun p => p.2.current_agent_info) hsplit hkr hvne g1 g2
    ([], infos) hpost
  unfold takeStep
  rw [hgsplit, hfold]
  -- now compute dispatchedSlice
  simp only [dispatchedSlice, hget]
  have hgroup : ((prev.filter
      (brainPred r.current_agent_info.brain_name)).map Prod.snd).map
        (fun s => s.current_agent_info) =
      (prev.filter fun p =>
          p.2.current_agent_info.brain_name ==
            r.current_agent_info.brain_name).map
        fun p => p.2.current_agent_info := by
    simp only [List.map_map]
    rfl
  have hidx : ((prev.filter fun p =>
      p.2.current_agent_info.brain_name ==
        r.current_agent_info.brain_name).map
      fun p => p.2.current_agent_info).findIdx (fun a => a.id == k) =
      (f1.map fun p => p.2.current_agent_info).length := by
    rw [← hgroup, hsplit]
    refine findIdx_append_first _ _ _ _ ?_ (by simp [hkr])
    intro b hb
    rcases List.mem_map.mp hb with ⟨q, hq, rfl⟩
    have hqprev : q ∈ prev := List.mem_of_mem_filter
      (hfsplit ▸ List.mem_append.mpr (Or.inl hq))
    simp only [beq_eq_false_iff_ne, ne_eq]
    rw [hkc q hqprev]
    exact hf1 q hq
  rw [hidx, ← hgroup]

/-! ## C10: post-processing needs a stored record for every agent id -/

/-- C10: `_postprocess_steps` succeeds on a worker's batch exactly when every
observation's agent id already has a stored record in that worker's
`previous_agent_steps`; an unseen agent id fails the call (the unguarded
`previous_agent_steps[agent_info.id]`) instead of producing a record with an
absent previous observation. -/
theorem postprocess_requires_stored_history (infos : Dict AgentActionInfo)
    (w : UnityEnvWorker) (batch : List AgentInfo) :
    (postprocessBatch infos w batch).isSome ↔
      ∀ info ∈ batch, (dictGet w.previous_agent_steps info.id).isSome := by
  induction batch generalizing w with
  | nil => simp [postprocessBatch]
  | cons info rest ih =>
      cases hkey : dictGet w.previous_agent_steps info.id with
      | none =>
          simp only [postprocessBatch, hkey, Option.none_bind]
          constructor
          · intro h; simp at h
          · intro h
            have := h info (List.mem_cons_self _ _)
            rw [hkey] at this
            simp at this
      | some prev =>
          simp only [postprocessBatch, hkey, Option.some_bind,
            Option.isSome_map']
          rw [ih]
          have hpres := dictGet_insert_isSome_of_mem
            (d := w.previous_agent_steps)
            (⟨some prev.current_agent_info, info, dictGet infos info.id⟩ :
              AgentStep) hkey
          constructor
          · intro h a ha
            rcases List.mem_cons.mp ha with rfl | ha'
            · rw [hkey]; rfl
            · have hh := h a ha'
              rwa [hpres a.id] at hh
          · intro h a ha
            rw [hpres a.id]
            exact h a (List.mem_cons_of_mem _ ha)

/-! ## C3: auto-reset inside the worker loop -/

/-- Every record built by `_postprocess_steps` takes its previous observation
from the worker's stored step, so it is present whenever post-processing
succeeds. -/
theorem postprocessBatch_previous_isSome (infos : Dict AgentActionInfo) :
    ∀ (batch : List AgentInfo) (w : UnityEnvWorker) (steps : List AgentStep)
      (w' : UnityEnvWorker),
      postprocessBatch infos w batch = some (steps, w') →
        ∀ s ∈ steps, s.previous_agent_info.isSome := by
  intro batch
  induction batch with
  | nil =>
      intro w steps w' h
      simp only [postprocessBatch, Option.some_inj, Prod.mk.injEq] at h
      simp [← h.1]
  | cons info rest ih =>
      intro w steps w' h
      cases hkey : dictGet w.previous_agent_steps info.id with
      | none => rw [postprocessBatch, hkey] at h; simp at h
      | some prev =>
          rw [postprocessBatch, hkey] at h
          simp only [Option.some_bind] at h
          cases hrec : postprocessBatch infos
              { w with previous_agent_steps :=
                  (dictInsert w.previous_agent_steps info.id
                    ⟨some prev.current_agent_info, info,
                      dictGet infos info.id⟩) } rest with
          | none => rw [hrec] at h; simp at h
          | some p =>
              obtain ⟨ps, pw⟩ := p
              rw [hrec] at h
              simp only [Option.map_some', Option.some_inj,
                Prod.mk.injEq] at h
              intro s hs
              rw [← h.1] at hs
              rcases List.mem_cons.mp hs with rfl | hs'
              · rfl
              · exact ih _ ps pw hrec s hs'

theorem worker_step_global_done (env : EnvState) (actions : Dict ActionInfo)
    (h : env.global_done = true) : worker_step env actions = env.reset_obs := by
  simp [worker_step, h]

/-- C3 (counterexample): after the worker's implicit reset, the next `step()`
call returns that worker's reset-shaped batch (current observation `obs = 5`
comes from `reset_obs`), yet the returned record's `previous_observation` is
the stored one — present, not absent. -/
theorem auto_reset_keeps_previous_observation_cex :
    ((okSteps (SubprocessEnvManager.step constPolicies mgrAutoReset)).map
        fun s => (s.previous_agent_info, s.current_agent_info)) =
      [(some ⟨"a", "B", 0⟩, ⟨"a", "B", 5⟩)] ∧
      some (⟨"a", "B", 0⟩ : AgentInfo) ≠ none := by
  constructor
  · rfl
  · simp

/-- C3 (amended): a worker whose environment reports `global_done` answers
the step command with a full implicit-reset observation batch (no
incremental step), but the manager's post-processing still builds the
returned records from stored per-agent history: every record's
`previous_observation` is present, not absent. -/
theorem auto_reset_worker_resets_but_records_keep_history :
    (∀ (env : EnvState) (actions : Dict ActionInfo), env.global_done = true →
        worker_step env actions = env.reset_obs) ∧
      ∀ (infos : Dict AgentActionInfo) (batch : List AgentInfo)
        (w : UnityEnvWorker) (steps : List AgentStep) (w' : UnityEnvWorker),
        postprocessBatch infos w batch = some (steps, w') →
          ∀ s ∈ steps, s.previous_agent_info.isSome := by
  refine ⟨worker_step_global_done, ?_⟩
  intro infos batch w steps w' h
  exact postprocessBatch_previous_isSome infos batch w steps w' h

/-- Witness for `auto_reset_worker_resets_but_records_keep_history`. -/
theorem auto_reset_worker_resets_but_records_keep_history_witness :
    worker_step envDone [] = envDone.reset_obs ∧
      (AgentStep.mk (some ⟨"a", "B", 0⟩) ⟨"a", "B", 5⟩
          none).previous_agent_info.isSome := by
  constructor
  · exact auto_reset_worker_resets_but_records_keep_history.1 envDone [] rfl
  · exact auto_reset_worker_resets_but_records_keep_history.2 []
      [⟨"a", "B", 5⟩] ⟨0, [("a", ⟨none, ⟨"a", "B", 0⟩, none⟩)], false⟩
      [⟨some ⟨"a", "B", 0⟩, ⟨"a", "B", 5⟩, none⟩]
      ⟨0, [("a", ⟨some ⟨"a", "B", 0⟩, ⟨"a", "B", 5⟩, none⟩)], false⟩
      (by decide) _ (List.mem_cons_self _ _)

/-! ## C2: ordering of the returned records -/

/-- The records built from one worker's batch keep the batch's original
observation order. -/
theorem postprocessBatch_currents (infos : Dict AgentActionInfo) :
    ∀ (batch : List AgentInfo) (w : UnityEnvWorker) (steps : List AgentStep)
      (w' : UnityEnvWorker),
      postprocessBatch infos w batch = some (steps, w') →
        steps.map AgentStep.current_agent_info = batch := by
  intro batch
  induction batch with
  | nil =>
      intro w steps w' h
      simp only [postprocessBatch, Option.some_inj, Prod.mk.injEq] at h
      simp [← h.1]
  | cons info rest ih =>
      intro w steps w' h
      cases hkey : dictGet w.previous_agent_steps info.id with
      | none => rw [postprocessBatch, hkey] at h; simp at h
      | some prev =>
          rw [postprocessBatch, hkey] at h
          simp only [Option.some_bind] at h
          cases hrec : postprocessBatch infos
              { w with previous_agent_steps :=
                  (dictInsert w.previous_agent_steps info.id
                    ⟨some prev.current_agent_info, info,
                      dictGet infos info.id⟩) } rest with
          | none => rw [hrec] at h; simp at h
          | some p =>
              obtain ⟨ps, pw⟩ := p
              rw [hrec] at h
              simp only [Option.map_some', Option.some_inj,
                Prod.mk.injEq] at h
              rw [← h.1, List.map_cons, ih _ ps pw hrec]

/-- C2 (counterexample): with worker 1's fresh result drained before worker
0's older one, `step()` returns worker 1's two records (`"b1"`, `"b2"`)
before worker 0's record (`"a1"`) — the sequence is in drain order, not
worker-id-ascending order. -/
theorem step_records_not_worker_ascending_cex :
    ((okSteps (SubprocessEnvManager.step constPolicies mgrDrainOrder)).map
        fun s => s.current_agent_info.id) = ["b1", "b2", "a1"] ∧
      (["b1", "b2", "a1"] : List String) ≠ ["a1", "b1", "b2"] := by
  constructor
  · rfl
  · decide

/-- C2 (amended): the sequence of records a `step()` call returns follows
the order in which the workers' batches were drained from the shared channel
in that call (not worker id order), and within each worker's batch the
original per-worker observation order. -/
theorem step_records_follow_drain_order (infos : Dict AgentActionInfo)
    (batches : List EnvironmentResponse) :
    ∀ (ws : List UnityEnvWorker) (steps : List AgentStep)
      (ws' : List UnityEnvWorker),
      postprocessSteps infos ws batches = some (steps, ws') →
        steps.map AgentStep.current_agent_info =
          batches.flatMap fun r => r.payload.all_agent_info := by
  induction batches with
  | nil =>
      intro ws steps ws' h
      simp only [postprocessSteps, Option.some_inj, Prod.mk.injEq] at h
      simp [← h.1]
  | cons r rest ih =>
      intro ws steps ws' h
      cases hw : ws[r.worker_id]? with
      | none => rw [postprocessSteps, hw] at h; simp at h
      | some w =>
          rw [postprocessSteps, hw] at h
          simp only [Option.some_bind] at h
          cases hb : postprocessBatch infos w r.payload.all_agent_info with
          | none => rw [hb] at h; simp at h
          | some p =>
              obtain ⟨ps, pw⟩ := p
              rw [hb] at h
              simp only [Option.some_bind] at h
              cases hrest : postprocessSteps infos
                  (ws.set r.worker_id pw) rest with
              | none => rw [hrest] at h; simp at h
              | some q =>
                  obtain ⟨qs, qw⟩ := q
                  rw [hrest] at h
                  simp only [Option.map_some', Option.some_inj,
                    Prod.mk.injEq] at h
                  rw [← h.1, List.flatMap_cons, List.map_append,
                    postprocessBatch_currents infos _ w ps pw hb,
                    ih _ _ _ hrest]

/-- Witness for `step_records_follow_drain_order`. -/
theorem step_records_follow_drain_order_witness :
    postprocessSteps [] [⟨0, [("a", ⟨none, ⟨"a", "B", 0⟩, none⟩)], false⟩]
        [⟨0, ⟨[⟨"a", "B", 7⟩]⟩⟩] =
      some ([⟨some ⟨"a", "B", 0⟩, ⟨"a", "B", 7⟩, none⟩],
        [⟨0, [("a", ⟨some ⟨"a", "B", 0⟩, ⟨"a", "B", 7⟩, none⟩)], false⟩]) ∧
      ([⟨some ⟨"a", "B", 0⟩, ⟨"a", "B", 7⟩, none⟩] : List AgentStep).map
          AgentStep.current_agent_info =
        ([⟨0, ⟨[⟨"a", "B", 7⟩]⟩⟩] : List EnvironmentResponse).flatMap
          fun r => r.payload.all_agent_info :=
  ⟨by decide,
    step_records_follow_drain_order [] [⟨0, ⟨[⟨"a", "B", 7⟩]⟩⟩]
      [⟨0, [("a", ⟨none, ⟨"a", "B", 0⟩, none⟩)], false⟩]
      [⟨some ⟨"a", "B", 0⟩, ⟨"a", "B", 7⟩, none⟩]
      [⟨0, [("a", ⟨some ⟨"a", "B", 0⟩, ⟨"a", "B", 7⟩, none⟩)], false⟩]
      (by decide)⟩

/-! ## C9: shape of `reset()` results -/

theorem resetRecvGo_presence_mono :
    ∀ (batch : List AgentInfo) (w : UnityEnvWorker) (k : String),
      (dictGet w.previous_agent_steps k).isSome →
        (dictGet (resetRecvGo w batch).2.previous_agent_steps k).isSome := by
  intro batch
  induction batch with
  | nil => intro w k h; simpa [resetRecvGo] using h
  | cons info rest ih =>
      intro w k h
      simp only [resetRecvGo]
      exact ih _ k (dictGet_insert_isSome_mono _ h)

theorem resetRecvGo_shape :
    ∀ (batch : List AgentInfo) (w : UnityEnvWorker),
      ∀ s ∈ (resetRecvGo w batch).1,
        s.previous_agent_info = none ∧ s.previous_action = none ∧
          (dictGet (resetRecvGo w batch).2.previous_agent_steps
            s.current_agent_info.id).isSome := by
  intro batch
  induction batch with
  | nil => intro w s hs; simp [resetRecvGo] at hs
  | cons info rest ih =>
      intro w s hs
      simp only [resetRecvGo, List.mem_cons] at hs ⊢
      rcases hs with rfl | hs'
      · refine ⟨rfl, rfl, ?_⟩
        exact resetRecvGo_presence_mono rest _ _ (by simp [dictGet_insert_self])
      · exact ih _ s hs'

theorem resetRecvAll_shape (f : Nat → List AgentInfo) :
    ∀ (ws : List UnityEnvWorker), ∀ s ∈ (resetRecvAll f ws).1,
      s.previous_agent_info = none ∧ s.previous_action = none ∧
        ∃ w' ∈ (resetRecvAll f ws).2,
          (dictGet w'.previous_agent_steps s.current_agent_info.id).isSome := by
  intro ws
  induction ws with
  | nil => intro s hs; simp [resetRecvAll] at hs
  | cons w rest ih =>
      intro s hs
      simp only [resetRecvAll, List.mem_append] at hs
      rcases hs with hs1 | hs2
      · obtain ⟨h1, h2, h3⟩ := resetRecvGo_shape (f w.worker_id) w s hs1
        refine ⟨h1, h2, (resetRecvGo w (f w.worker_id)).2, ?_, h3⟩
        simp [resetRecvAll]
      · obtain ⟨h1, h2, w', hw', h3⟩ := ih s hs2
        refine ⟨h1, h2, w', ?_, h3⟩
        simp only [resetRecvAll, List.mem_cons]
        exact Or.inr hw'

/-- C9: every record returned by `reset()` has an absent previous observation
and an absent previous action, and some worker in the resulting pool stores a
record under that agent id. -/
theorem reset_records_shape (resetObs : Nat → List AgentInfo)
    (m : SubprocessEnvManager) (steps : List AgentStep)
    (m' : SubprocessEnvManager)
    (h : m.reset resetObs = some (steps, m')) :
    ∀ s ∈ steps, s.previous_agent_info = none ∧ s.previous_action = none ∧
      ∃ w ∈ m'.env_workers,
        (dictGet w.previous_agent_steps s.current_agent_info.id).isSome := by
  unfold SubprocessEnvManager.reset at h
  cases hd : resetDrain m.env_workers m.step_queue with
  | none => rw [hd] at h; simp at h
  | some pr =>
      obtain ⟨ws1, qRest⟩ := pr
      rw [hd] at h
      simp only [Option.some_inj, Prod.mk.injEq] at h
      intro s hs
      rw [← h.1] at hs
      obtain ⟨h1, h2, w', hw', h3⟩ := resetRecvAll_shape resetObs ws1 s hs
      refine ⟨h1, h2, w', ?_, h3⟩
      rw [← h.2]
      exact hw'

/-- Witness for `reset_records_shape`. -/
theorem reset_records_shape_witness :
    (AgentStep.mk none ⟨"a1", "B", 0⟩ none).previous_agent_info = none ∧
      (AgentStep.mk none ⟨"a1", "B", 0⟩ none).previous_action = none ∧
      ∃ w ∈ mgrAfterReset.env_workers,
        (dictGet w.previous_agent_steps
          (AgentStep.mk none ⟨"a1", "B", 0⟩
            none).current_agent_info.id).isSome :=
  reset_records_shape resetObsEx mgrFresh resetStepsEx mgrAfterReset
    (by decide) _ (by decide)

/-! ## C1: quorum collection returns on the first available result -/

theorem queueSteps_step_queue (policies : Policies)
    (m : SubprocessEnvManager) :
    (m.queueSteps policies).step_queue = m.step_queue := rfl

/-- C1: whenever at least one worker's response is on the shared channel by
drain time, `step()` does not block; the collected result set is non-empty
and mentions only workers that actually responded in this call — in
particular the call never waits for all `N` workers. -/
theorem step_returns_on_first_result (policies : Policies)
    (m : SubprocessEnvManager) (hq : m.step_queue ≠ []) :
    SubprocessEnvManager.step policies m ≠ StepOutcome.blocked ∧
      (drainAll (m.queueSteps policies).env_workers [] m.step_queue).1 ≠ [] ∧
      ∀ r ∈ (drainAll (m.queueSteps policies).env_workers []
          m.step_queue).1,
        r.worker_id ∈ m.step_queue.map EnvironmentResponse.worker_id := by
  obtain ⟨r, rest, hq'⟩ : ∃ r rest, m.step_queue = r :: rest := by
    cases h : m.step_queue with
    | nil => exact absurd h hq
    | cons a b => exact ⟨a, b, rfl⟩
  refine ⟨?_, ?_, ?_⟩
  · unfold SubprocessEnvManager.step
    rw [if_neg hq]
    cases hps : postprocessSteps
        (m.queueSteps policies).previous_agent_action_infos
        (drainAll (m.queueSteps policies).env_workers [] m.step_queue).2
        (drainAll (m.queueSteps policies).env_workers [] m.step_queue).1 with
    | none => simp [hps]
    | some p => simp [hps]
  · rw [hq']
    simp only [drainAll, List.not_mem_nil, if_neg]
    simp
  · intro r' hr'
    exact List.mem_map_of_mem _ (drainAll_fst_subset _ _ _ _ hr')

/-! ## C6: which action slice a returned record carries -/

theorem queueStepsGo_cons_snd_waiting (policies : Policies)
    {w : UnityEnvWorker} (rest : List UnityEnvWorker)
    (infos : Dict AgentActionInfo) (hb : w.waiting = true) :
    (queueStepsGo policies (w :: rest) infos).2 =
      (queueStepsGo policies rest infos).2 := by
  simp [queueStepsGo, hb]

theorem queueStepsGo_cons_snd_idle (policies : Policies)
    {w : UnityEnvWorker} (rest : List UnityEnvWorker)
    (infos : Dict AgentActionInfo) (hb : w.waiting = false) :
    (queueStepsGo policies (w :: rest) infos).2 =
      (queueStepsGo policies rest
        (takeStep policies w.previous_agent_steps infos).2).2 := by
  simp [queueStepsGo, hb]

theorem queueStepsGo_append (policies : Policies) :
    ∀ (xs ys : List UnityEnvWorker) (infos : Dict AgentActionInfo),
      (queueStepsGo policies (xs ++ ys) infos).2 =
        (queueStepsGo policies ys (queueStepsGo policies xs infos).2).2 := by
  intro xs
  induction xs with
  | nil => intro ys infos; rfl
  | cons w xs ih =>
      intro ys infos
      rw [List.cons_append]
      cases hb : w.waiting with
      | true =>
          rw [queueStepsGo_cons_snd_waiting policies _ _ hb,
            queueStepsGo_cons_snd_waiting policies _ _ hb, ih]
      | false =>
          rw [queueStepsGo_cons_snd_idle policies _ _ hb,
            queueStepsGo_cons_snd_idle policies _ _ hb, ih]

theorem queueStepsGo_get_of_ne (policies : Policies) (k : String) :
    ∀ (ws : List UnityEnvWorker) (infos : Dict AgentActionInfo),
      (∀ w' ∈ ws, ∀ p ∈ w'.previous_agent_steps,
          p.2.current_agent_info.id ≠ k) →
        dictGet (queueStepsGo policies ws infos).2 k = dictGet infos k := by
  intro ws
  induction ws with
  | nil => intro infos _; rfl
  | cons w rest ih =>
      intro infos h
      cases hb : w.waiting with
      | true =>
          rw [queueStepsGo_cons_snd_waiting policies _ _ hb]
          exact ih _ fun w' hw' => h w' (List.mem_cons_of_mem _ hw')
      | false =>
          rw [queueStepsGo_cons_snd_idle policies _ _ hb,
            ih _ fun w' hw' => h w' (List.mem_cons_of_mem _ hw'),
            takeStep_get_of_ne policies _ k
              (h w (List.mem_cons_self _ _)) infos]

/-- Every record built by `_postprocess_steps` carries, as its
`previous_action`, whatever `previous_agent_action_infos` holds under the
record's agent id. -/
theorem postprocessBatch_prev_action (infos : Dict AgentActionInfo) :
    ∀ (batch : List AgentInfo) (w : UnityEnvWorker) (steps : List AgentStep)
      (w' : UnityEnvWorker),
      postprocessBatch infos w batch = some (steps, w') →
        ∀ s ∈ steps,
          s.previous_action = dictGet infos s.current_agent_info.id := by
  intro batch
  induction batch with
  | nil =>
      intro w steps w' h
      simp only [postprocessBatch, Option.some_inj, Prod.mk.injEq] at h
      simp [← h.1]
  | cons info rest ih =>
      intro w steps w' h
      cases hkey : dictGet w.previous_agent_steps info.id with
      | none => rw [postprocessBatch, hkey] at h; simp at h
      | some prev =>
          rw [postprocessBatch, hkey] at h
          simp only [Option.some_bind] at h
          cases hrec : postprocessBatch infos
              { w with previous_agent_steps :=
                  (dictInsert w.previous_agent_steps info.id
                    ⟨some prev.current_agent_info, info,
                      dictGet infos info.id⟩) } rest with
          | none => rw [hrec] at h; simp at h
          | some p =>
              obtain ⟨ps, pw⟩ := p
              rw [hrec] at h
              simp only [Option.map_some', Option.some_inj,
                Prod.mk.injEq] at h
              intro s hs
              rw [← h.1] at hs
              rcases List.mem_cons.mp hs with rfl | hs'
              · rfl
              · exact ih _ ps pw hrec s hs'

theorem postprocessSteps_prev_action (infos : Dict AgentActionInfo) :
    ∀ (batches : List EnvironmentResponse) (ws : List UnityEnvWorker)
      (steps : List AgentStep) (ws' : List UnityEnvWorker),
      postprocessSteps infos ws batches = some (steps, ws') →
        ∀ s ∈ steps,
          s.previous_action = dictGet infos s.current_agent_info.id := by
  intro batches
  induction batches with
  | nil =>
      intro ws steps ws' h
      simp only [postprocessSteps, Option.some_inj, Prod.mk.injEq] at h
      simp [← h.1]
  | cons r rest ih =>
      intro ws steps ws' h
      cases hw : ws[r.worker_id]? with
      | none => rw [postprocessSteps, hw] at h; simp at h
      | some w =>
          rw [postprocessSteps, hw] at h
          simp only [Option.some_bind] at h
          cases hb : postprocessBatch infos w r.payload.all_agent_info with
          | none => rw [hb] at h; simp at h
          | some p =>
              obtain ⟨ps, pw⟩ := p
              rw [hb] at h
              simp only [Option.some_bind] at h
              cases hrest : postprocessSteps infos
                  (ws.set r.worker_id pw) rest with
              | none => rw [hrest] at h; simp at h
              | some q =>
                  obtain ⟨qs, qw⟩ := q
                  rw [hrest] at h
                  simp only [Option.map_some', Option.some_inj,
                    Prod.mk.injEq] at h
                  intro s hs
                  rw [← h.1] at hs
                  rcases List.mem_append.mp hs with hs1 | hs2
                  · exact postprocessBatch_prev_action infos _ w ps pw
                      hb s hs1
                  · exact ih _ qs qw hrest s hs2

/-- Inversion of a successful `step()` call. -/
theorem step_ok_inv (policies : Policies) (m : SubprocessEnvManager)
    (steps : List AgentStep) (m' : SubprocessEnvManager)
    (h : SubprocessEnvManager.step policies m = .ok steps m') :
    postprocessSteps (m.queueSteps policies).previous_agent_action_infos
      (drainAll (m.queueSteps policies).env_workers [] m.step_queue).2
      (drainAll (m.queueSteps policies).env_workers [] m.step_queue).1 =
      some (steps, m'.env_workers) := by
  unfold SubprocessEnvManager.step at h
  by_cases hq : m.step_queue = []
  · rw [if_pos hq] at h
    exact StepOutcome.noConfusion h
  · rw [if_neg hq] at h
    cases hps : postprocessSteps
        (m.queueSteps policies).previous_agent_action_infos
        (drainAll (m.queueSteps policies).env_workers [] m.step_queue).2
        (drainAll (m.queueSteps policies).env_workers []
          m.step_queue).1 with
    | none =>
        rw [hps] at h
        exact StepOutcome.noConfusion h
    | some p =>
        obtain ⟨ps, pw⟩ := p
        rw [hps] at h
        simp only [StepOutcome.ok.injEq] at h
        rw [h.1, ← h.2]

/-- C6 (counterexample): the two workers' agents share the id `"a"`; worker 0
was dispatched action `0` (its agent's observation under `constPolicies`),
but because `previous_agent_action_infos` is keyed by agent id alone, worker
1's later dispatch overwrote the entry, and worker 0's returned record
carries action `1`. -/
theorem previous_action_cross_worker_clobber_cex :
    ((okSteps (SubprocessEnvManager.step constPolicies mgrClobber)).map
        fun s => s.previous_action) =
      [some ⟨some 1, none, none, none⟩] ∧
      dispatchedSlice constPolicies
          [("a", ⟨none, ⟨"a", "B", 0⟩, none⟩)] "a" =
        some ⟨some 0, none, none, none⟩ ∧
      some (⟨some 1, none, none, none⟩ : AgentActionInfo) ≠
        some ⟨some 0, none, none, none⟩ := by
  refine ⟨rfl, rfl, by decide⟩

/-- C6 (amended): a returned record's `previous_action` is the per-agent
slice stored under its agent id at dispatch time; the store is keyed by
agent id alone and shared across workers, so the slice is the one recorded
by the worker dispatched last among those carrying the id.  Whenever no
worker after `w` in pool order carries the id, the record equals exactly the
`dispatchedSlice` of the policy batch computed from `w`'s stored steps. -/
theorem previous_action_matches_dispatched_slice (policies : Policies)
    (m : SubprocessEnvManager) (pre post : List UnityEnvWorker)
    (w : UnityEnvWorker) (agent_id : String) (r : AgentStep)
    (steps : List AgentStep) (m' : SubprocessEnvManager)
    (hws : m.env_workers = pre ++ w :: post)
    (hwait : w.waiting = false)
    (hn : (dictKeys w.previous_agent_steps).Nodup)
    (hkc : KeyConsistent w.previous_agent_steps)
    (hr : dictGet w.previous_agent_steps agent_id = some r)
    (hpost : ∀ w' ∈ post, ∀ p ∈ w'.previous_agent_steps,
        p.2.current_agent_info.id ≠ agent_id)
    (hstep : SubprocessEnvManager.step policies m = .ok steps m') :
    ∀ s ∈ steps, s.current_agent_info.id = agent_id →
      s.previous_action =
        dispatchedSlice policies w.previous_agent_steps agent_id := by
  intro s hs hid
  have hinv := step_ok_inv policies m steps m' hstep
  have h1 := postprocessSteps_prev_action _ _ _ _ _ hinv s hs
  rw [h1, hid]
  have hfield : (m.queueSteps policies).previous_agent_action_infos =
      (queueStepsGo policies m.env_workers
        m.previous_agent_action_infos).2 := rfl
  rw [hfield, hws, queueStepsGo_append,
    queueStepsGo_cons_snd_idle policies _ _ hwait,
    queueStepsGo_get_of_ne policies agent_id post _ hpost,
    takeStep_get_of_mem policies _ agent_id r hn hkc hr]

/-- Witness for `previous_action_matches_dispatched_slice`. -/
theorem previous_action_matches_dispatched_slice_witness :
    (AgentStep.mk (some ⟨"a", "B", 0⟩) ⟨"a", "B", 10⟩
        (some ⟨some 0, none, none, none⟩)).previous_action =
      dispatchedSlice constPolicies
        [("a", ⟨none, ⟨"a", "B", 0⟩, none⟩)] "a" :=
  previous_action_matches_dispatched_slice constPolicies mgrSingle [] []
    ⟨0, [("a", ⟨none, ⟨"a", "B", 0⟩, none⟩)], false⟩ "a"
    ⟨none, ⟨"a", "B", 0⟩, none⟩
    [⟨some ⟨"a", "B", 0⟩, ⟨"a", "B", 10⟩, some ⟨some 0, none, none, none⟩⟩]
    ⟨[⟨0, [("a", ⟨some ⟨"a", "B", 0⟩, ⟨"a", "B", 10⟩,
        some ⟨some 0, none, none, none⟩⟩)], false⟩], [],
      [("a", ⟨some 0, none, none, none⟩)]⟩
    rfl rfl (by decide)
    (by intro p hp; rcases List.mem_singleton.mp hp with rfl; rfl)
    (by decide) (by decide) (by decide)
    _ (by decide) rfl

/-! ## C7: the waiting-flag discipline -/

theorem coordInv_init (n : Nat) : CoordInv (coordInit n) := by
  intro i
  have hp : pendingAt (coordInit n) i = 0 := by
    simp only [pendingAt, coordInit, List.getElem?_replicate]
    by_cases h : i < n <;> simp [h]
  have hw : waitingAt (coordInit n) i = false := by
    simp only [waitingAt, coordInit, List.getElem?_replicate]
    by_cases h : i < n <;> simp [h]
  have hc : (coordInit n).queue.count i = 0 := by simp [coordInit]
  constructor
  · simp [inflight, hp, hc]
  · simp [inflight, hp, hc, hw]

theorem coordInv_preserved {s s' : CoordState} (hInv : CoordInv s)
    (he : CoordEvent s s') : CoordInv s' := by
  cases he with
  | dispatch =>
      intro i
      obtain ⟨hle, hiff⟩ := hInv i
      have hq : (dispatchAll s).queue = s.queue := rfl
      cases hw : s.workers[i]? with
      | none =>
          have hp' : pendingAt (dispatchAll s) i = 0 := by
            simp [pendingAt, dispatchAll, List.getElem?_map, hw]
          have hw' : waitingAt (dispatchAll s) i = false := by
            simp [waitingAt, dispatchAll, List.getElem?_map, hw]
          have hp0 : pendingAt s i = 0 := by simp [pendingAt, hw]
          have hwf : waitingAt s i = false := by simp [waitingAt, hw]
          have hne : inflight s i ≠ 1 := fun hc =>
            Bool.noConfusion (hwf.symm.trans (hiff.mpr hc))
          have hc0 : s.queue.count i = 0 := by
            unfold inflight at hle hne
            omega
          refine ⟨?_, ?_⟩ <;> simp [inflight, hp', hw', hq, hc0]
      | some w =>
          have hp' : pendingAt (dispatchAll s) i =
              (if w.waiting then w.pending else w.pending + 1) := by
            by_cases hb : w.waiting <;>
              simp [pendingAt, dispatchAll, List.getElem?_map, hw, hb]
          have hw' : waitingAt (dispatchAll s) i = true := by
            by_cases hb : w.waiting <;>
              simp [waitingAt, dispatchAll, List.getElem?_map, hw, hb]
          have hp0 : pendingAt s i = w.pending := by simp [pendingAt, hw]
          have hw0 : waitingAt s i = w.waiting := by simp [waitingAt, hw]
          by_cases hb : w.waiting
          · have h1 : inflight s i = 1 := hiff.mp (by rw [hw0, hb])
            have h2 : inflight (dispatchAll s) i = 1 := by
              unfold inflight at h1 ⊢
              rw [hp', if_pos hb, hq, ← hp0]
              exact h1
            exact ⟨by omega, by simp [hw', h2]⟩
          · have hne : inflight s i ≠ 1 := fun hc =>
              hb (hw0.symm.trans (hiff.mpr hc))
            have hc0 : s.queue.count i = 0 := by
              unfold inflight at hle hne
              rw [hp0] at hle hne
              omega
            have hpw : w.pending = 0 := by
              unfold inflight at hle hne
              rw [hp0] at hle hne
              omega
            have h2 : inflight (dispatchAll s) i = 1 := by
              unfold inflight
              rw [hp', if_neg hb, hq, hc0, hpw]
            exact ⟨by omega, by simp [hw', h2]⟩
  | respond i w hw hp =>
      intro j
      obtain ⟨hle, hiff⟩ := hInv i
      have hlen : i < s.workers.length := by
        by_contra hlen
        rw [List.getElem?_eq_none (by omega)] at hw
        exact Option.noConfusion hw
      have hp0 : pendingAt s i = w.pending := by simp [pendingAt, hw]
      have hw0 : waitingAt s i = w.waiting := by simp [waitingAt, hw]
      have h1 : inflight s i = 1 := by
        unfold inflight at hle ⊢
        rw [hp0] at hle ⊢
        omega
      have hc0 : s.queue.count i = 0 := by
        unfold inflight at h1
        rw [hp0] at h1
        omega
      have hpw : w.pending = 1 := by
        unfold inflight at h1
        rw [hp0] at h1
        omega
      have hwt : w.waiting = true := hw0.symm.trans (hiff.mpr h1)
      by_cases hj : j = i
      · subst hj
        have hpj : pendingAt
            ⟨s.workers.set j { w with pending := w.pending - 1 },
              s.queue ++ [j]⟩ j = w.pending - 1 := by
          simp [pendingAt, List.getElem?_set_self hlen]
        have hwj : waitingAt
            ⟨s.workers.set j { w with pending := w.pending - 1 },
              s.queue ++ [j]⟩ j = w.waiting := by
          simp [waitingAt, List.getElem?_set_self hlen]
        have hcj : (s.queue ++ [j]).count j = 1 := by
          simp [List.count_append, hc0]
        refine ⟨?_, ?_⟩
        · simp only [inflight]
          rw [hpj, hcj]
          omega
        · simp only [inflight]
          rw [hpj, hcj, hwj, hwt, hpw]
          simp
      · obtain ⟨hlej, hiffj⟩ := hInv j
        have hji : ¬(i = j) := fun he => hj he.symm
        have hpj : pendingAt
            ⟨s.workers.set i { w with pending := w.pending - 1 },
              s.queue ++ [i]⟩ j = pendingAt s j := by
          simp [pendingAt, List.getElem?_set_ne hji]
        have hwj : waitingAt
            ⟨s.workers.set i { w with pending := w.pending - 1 },
              s.queue ++ [i]⟩ j = waitingAt s j := by
          simp [waitingAt, List.getElem?_set_ne hji]
        have hcj : (s.queue ++ [i]).count j = s.queue.count j := by
          simp [List.count_append, List.count_singleton', hji]
        refine ⟨?_, ?_⟩
        · simp only [inflight]
          rw [hpj, hcj]
          simpa [inflight] using hlej
        · simp only [inflight]
          rw [hpj, hwj, hcj]
          simpa [inflight] using hiffj
  | drain i rest hqe =>
      intro j
      obtain ⟨hle, hiff⟩ := hInv i
      have hcge : 1 ≤ s.queue.count i := by
        rw [hqe]
        simp [List.count_cons]
      have h1 : inflight s i = 1 := by
        unfold inflight at hle ⊢
        omega
      have hp0 : pendingAt s i = 0 := by
        unfold inflight at h1
        omega
      have hc1 : s.queue.count i = 1 := by
        unfold inflight at h1
        omega
      have hcr : rest.count i = 0 := by
        rw [hqe] at hc1
        simp [List.count_cons] at hc1
        omega
      have hwt : waitingAt s i = true := hiff.mpr h1
      obtain ⟨w, hw⟩ : ∃ w, s.workers[i]? = some w := by
        cases hwo : s.workers[i]? with
        | none => rw [waitingAt, hwo] at hwt; exact absurd hwt (by simp)
        | some w => exact ⟨w, rfl⟩
      have hlen : i < s.workers.length := by
        by_contra hlen
        rw [List.getElem?_eq_none (by omega)] at hw
        exact Option.noConfusion hw
      have hclear : clearFlag s.workers i =
          s.workers.set i { w with waiting := false } := by
        simp [clearFlag, hw]
      have hpwi : w.pending = 0 := by
        rw [pendingAt, hw] at hp0
        exact hp0
      by_cases hj : j = i
      · subst hj
        have hpj : pendingAt ⟨clearFlag s.workers j, rest⟩ j = w.pending := by
          simp [pendingAt, hclear, List.getElem?_set_self hlen]
        have hwj : waitingAt ⟨clearFlag s.workers j, rest⟩ j = false := by
          simp [waitingAt, hclear, List.getElem?_set_self hlen]
        refine ⟨?_, ?_⟩
        · simp only [inflight]
          rw [hpj, hpwi, hcr]
          omega
        · simp only [inflight]
          rw [hpj, hwj, hpwi, hcr]
          simp

      · obtain ⟨hlej, hiffj⟩ := hInv j
        have hji : ¬(i = j) := fun he => hj he.symm
        have hpj : pendingAt ⟨clearFlag s.workers i, rest⟩ j =
            pendingAt s j := by
          simp [pendingAt, hclear, List.getElem?_set_ne hji]
        have hwj : waitingAt ⟨clearFlag s.workers i, rest⟩ j =
            waitingAt s j := by
          simp [waitingAt, hclear, List.getElem?_set_ne hji]
        have hcj : rest.count j = s.queue.count j := by
          rw [hqe]
          simp [List.count_cons, hji]
        refine ⟨?_, ?_⟩
        · simp only [inflight]
          rw [hpj, hcj]
          simpa [inflight] using hlej
        · simp only [inflight]
          rw [hpj, hwj, hcj]
          simpa [inflight] using hiffj


/-- C7: in every reachable protocol state, each worker has at most one step
command in flight, `waiting = true` holds exactly when one is in flight, and
a dispatch round (`_queue_steps`) never sends to a worker whose `waiting`
flag is set. -/
theorem waiting_flag_invariant (n : Nat) (s : CoordState)
    (h : CoordReachable n s) :
    CoordInv s ∧
      ∀ i, waitingAt s i = true →
        pendingAt (dispatchAll s) i = pendingAt s i := by
  have hinv : CoordInv s := by
    induction h with
    | refl => exact coordInv_init n
    | tail _ he ih => exact coordInv_preserved ih he
  refine ⟨hinv, ?_⟩
  intro i hi
  cases hw : s.workers[i]? with
  | none => simp [pendingAt, dispatchAll, List.getElem?_map, hw]
  | some w =>
      have : w.waiting = true := by
        rw [waitingAt, hw] at hi
        exact hi
      simp [pendingAt, dispatchAll, List.getElem?_map, hw, this]

/-- Witness for `waiting_flag_invariant`: after one dispatch round from a
fresh two-worker pool, worker 0 has exactly one command in flight. -/
theorem waiting_flag_invariant_witness :
    inflight (dispatchAll (coordInit 2)) 0 = 1 :=
  ((waiting_flag_invariant 2 (dispatchAll (coordInit 2))
      (Relation.ReflTransGen.single (CoordEvent.dispatch (coordInit 2)))).1
    0).2.mp (by decide)

/-- Witness for `step_returns_on_first_result`: in a two-worker pool where
only worker 1 has responded, `step()` returns worker 1's records without
waiting for worker 0. -/
theorem step_returns_on_first_result_witness :
    SubprocessEnvManager.step constPolicies mgrQuorum ≠
        StepOutcome.blocked ∧
      (drainAll (mgrQuorum.queueSteps constPolicies).env_workers []
          mgrQuorum.step_queue).1 ≠ [] ∧
      ∀ r ∈ (drainAll (mgrQuorum.queueSteps constPolicies).env_workers []
          mgrQuorum.step_queue).1,
        r.worker_id ∈ mgrQuorum.step_queue.map
          EnvironmentResponse.worker_id :=
  step_returns_on_first_result constPolicies mgrQuorum (by decide)

end MLAgents
